import Mathlib

/-!
Verification of the Harmony Metrics Engine of `src/app.py`.

The seven life domains `DOMAINS = [health, relationships, meaning, autonomy,
finance, leisure, competition]` are indexed by `Fin 7` in enumeration order
(so index `0` is `health`).  Python floats are idealised as exact arithmetic:
the Harmony Scorer, Risk Aggregator and Discrepancy Analyzer are embedded over
`ℝ` (the Unity term needs `Real.log` / `Real.sqrt`), while the Weight Solver's
post-eigenvector pipeline is embedded over `ℚ`, which contains every IEEE-754
double that `np.linalg.eig` can actually return.
-/

namespace HarmonyNavigator

/-! ### Harmony Scorer — `calculate_metrics` (src/app.py lines 170-213) -/

/-- `df_copy[col].fillna(0)` (app.py line 187): a domain-level vector with
missing entries, with every missing entry replaced by `0`. -/
def fillna (v : Fin 7 → Option ℝ) : Fin 7 → ℝ := fun i => (v i).getD 0

/-- `df_copy['S'] = np.nansum(q_vectors * s_vectors_normalized, axis=1)`
(app.py lines 189-192), where `s_vectors_normalized = s / 100.0` and both
`q` and `s` columns have been `fillna(0)`-ed beforehand. -/
noncomputable def satisfaction (q s : Fin 7 → Option ℝ) : ℝ :=
  ∑ i, fillna q i * (fillna s i / 100)

/-- `scipy.special.rel_entr(p, q) = p * log(p / q)` with the convention that
the term is `0` when `p = 0`, as used inside `scipy.spatial.distance.jensenshannon`. -/
noncomputable def rel_entr (p q : ℝ) : ℝ :=
  if p = 0 then 0 else p * Real.log (p / q)

/-- `scipy.spatial.distance.jensenshannon(p, q)` (natural-log base): inputs are
normalised to probability vectors, `m` is their midpoint, and the result is the
square root of half the sum of the two relative entropies w.r.t. `m`. -/
noncomputable def jensenshannon (p q : Fin 7 → ℝ) : ℝ :=
  Real.sqrt
    (((∑ i, rel_entr (p i / ∑ j, p j) ((p i / ∑ j, p j + q i / ∑ j, q j) / 2)) +
      (∑ i, rel_entr (q i / ∑ j, q j) ((p i / ∑ j, p j + q i / ∑ j, q j) / 2))) / 2)

/-- `calculate_unity(row)` (app.py lines 194-208): guard on zero-sum `q`, then
zero-sum `s`, then `1 - jensenshannon(q_norm, s_tilde) ** 2`. -/
noncomputable def calculate_unity (q s : Fin 7 → ℝ) : ℝ :=
  if (∑ i, q i) = 0 then 0
  else if (∑ i, s i) = 0 then 0
  else 1 - jensenshannon (fun i => q i / ∑ j, q j) (fun i => s i / ∑ j, s j) ^ 2

/-- `df_copy['H'] = alpha * df_copy['S'] + (1 - alpha) * df_copy['U']`
(app.py line 211). -/
def harmony (alpha S U : ℝ) : ℝ := alpha * S + (1 - alpha) * U

/-! ### Theorems for the Harmony Scorer -/

/-- C1: the Satisfaction score computed by `calculate_metrics` is the weighted
sum `S = Σ_i q_i · (s_i / 100)` over the 7 domains with missing `q_i` and
missing `s_i` treated as `0`, and it lies in `[0, 1]` whenever the `q_i` are
non-negative and sum to `1` and every present `s_i` lies in `[0, 100]`. -/
theorem satisfaction_weighted_sum_range (q s : Fin 7 → Option ℝ)
    (hq : ∀ i x, q i = some x → 0 ≤ x)
    (hqsum : (∑ i, (q i).getD 0) = 1)
    (hs : ∀ i x, s i = some x → 0 ≤ x ∧ x ≤ 100) :
    satisfaction q s = (∑ i, (q i).getD 0 * ((s i).getD 0 / 100)) ∧
    0 ≤ satisfaction q s ∧ satisfaction q s ≤ 1 := by
  have hq' : ∀ i, 0 ≤ fillna q i := by
    intro i
    unfold fillna
    cases hqi : q i with
    | none => simp
    | some x => simpa using hq i x hqi
  have hs' : ∀ i, 0 ≤ fillna s i ∧ fillna s i ≤ 100 := by
    intro i
    unfold fillna
    cases hsi : s i with
    | none => norm_num
    | some x => simpa using hs i x hsi
  refine ⟨rfl, ?_, ?_⟩
  · exact Finset.sum_nonneg fun i _ =>
      mul_nonneg (hq' i) (div_nonneg (hs' i).1 (by norm_num))
  · have hle : satisfaction q s ≤ ∑ i, fillna q i := by
      unfold satisfaction
      refine Finset.sum_le_sum fun i _ => ?_
      have h1 : fillna s i / 100 ≤ 1 := by
        have := (hs' i).2
        linarith
      calc fillna q i * (fillna s i / 100) ≤ fillna q i * 1 :=
            mul_le_mul_of_nonneg_left h1 (hq' i)
        _ = fillna q i := mul_one _
    calc satisfaction q s ≤ ∑ i, fillna q i := hle
      _ = 1 := hqsum

/-- Witness for C1 at a concrete record. -/
theorem satisfaction_weighted_sum_range_witness :
    satisfaction (fun i => some (if i = 0 then 1 else 0)) (fun _ => some 50) =
      (∑ i, ((fun i : Fin 7 => some (if i = 0 then (1 : ℝ) else 0)) i).getD 0 *
        (((fun _ : Fin 7 => some (50 : ℝ)) i).getD 0 / 100)) ∧
    0 ≤ satisfaction (fun i => some (if i = 0 then 1 else 0)) (fun _ => some 50) ∧
    satisfaction (fun i => some (if i = 0 then 1 else 0)) (fun _ => some 50) ≤ 1 :=
  satisfaction_weighted_sum_range _ _
    (fun i x h => by
      simp only [Option.some.injEq] at h
      subst h
      split <;> norm_num)
    (by simp [Fin.sum_univ_seven])
    (fun i x h => by
      simp only [Option.some.injEq] at h
      subst h
      norm_num)

/-- C2: Harmony is the convex combination `H = α·S + (1−α)·U`: for `α = 1`,
`H = S`; for `α = 0`, `H = U`; `H` is (affine-)linear in `α` for fixed `S` and
`U`; and `H ∈ [0,1]` whenever `S`, `U` are in `[0,1]` and `α` is a blend
coefficient in `[0,1]` (default `0.6`). -/
theorem harmony_convex_combination (S U α : ℝ)
    (hα0 : 0 ≤ α) (hα1 : α ≤ 1)
    (hS0 : 0 ≤ S) (hS1 : S ≤ 1) (hU0 : 0 ≤ U) (hU1 : U ≤ 1) :
    harmony 1 S U = S ∧ harmony 0 S U = U ∧
    (∀ a : ℝ, harmony a S U = U + a * (S - U)) ∧
    0 ≤ harmony α S U ∧ harmony α S U ≤ 1 := by
  unfold harmony
  refine ⟨by ring, by ring, fun a => by ring, ?_, ?_⟩
  · nlinarith
  · nlinarith

/-- Witness for C2 at `S = 1/2`, `U = 1/4`, `α = 0.6`. -/
theorem harmony_convex_combination_witness :
    harmony 1 (1/2 : ℝ) (1/4) = 1/2 ∧
    0 ≤ harmony 0.6 (1/2 : ℝ) (1/4) ∧ harmony 0.6 (1/2 : ℝ) (1/4) ≤ 1 := by
  have h := harmony_convex_combination (1/2) (1/4) 0.6
    (by norm_num) (by norm_num) (by norm_num) (by norm_num) (by norm_num) (by norm_num)
  exact ⟨h.1, h.2.2.2.1, h.2.2.2.2⟩

/-- C3: whenever the ideal vector sums to `0` or the domain-score vector sums
to `0`, the Unity term is defined as exactly `0` (the zero-sum guards in
`calculate_unity`), with no error. -/
theorem unity_zero_sum_guard (q s : Fin 7 → ℝ)
    (h : (∑ i, q i) = 0 ∨ (∑ i, s i) = 0) :
    calculate_unity q s = 0 := by
  unfold calculate_unity
  rcases h with h | h
  · rw [if_pos h]
  · by_cases hq : (∑ i, q i) = 0
    · rw [if_pos hq]
    · rw [if_neg hq, if_pos h]

/-- Witness for C3 at the all-zero ideal vector. -/
theorem unity_zero_sum_guard_witness :
    calculate_unity (fun _ => (0 : ℝ)) (fun _ => 1) = 0 :=
  unity_zero_sum_guard _ _ (Or.inl (by simp))

/-- The relative entropy of a point against itself vanishes. -/
theorem rel_entr_self (x : ℝ) : rel_entr x x = 0 := by
  unfold rel_entr
  split
  · rfl
  · rename_i h
    rw [div_self h, Real.log_one, mul_zero]

/-- The Jensen–Shannon distance of a vector from itself is `0`. -/
theorem jensenshannon_self (p : Fin 7 → ℝ) : jensenshannon p p = 0 := by
  unfold jensenshannon
  have hterm : ∀ i : Fin 7,
      rel_entr (p i / ∑ j, p j) ((p i / ∑ j, p j + p i / ∑ j, p j) / 2) = 0 := by
    intro i
    rw [add_self_div_two]
    exact rel_entr_self _
  simp [hterm, rel_entr_self]

/-- C4: for a record with nonzero-sum `Q` and nonzero-sum `S_raw` whose
normalized distributions coincide, the Unity term is exactly `1`
(the Jensen–Shannon distance of a distribution from itself is `0`). -/
theorem unity_one_on_match (q s : Fin 7 → ℝ)
    (hq : (∑ i, q i) ≠ 0) (hs : (∑ i, s i) ≠ 0)
    (heq : (fun i => q i / ∑ j, q j) = (fun i => s i / ∑ j, s j)) :
    calculate_unity q s = 1 := by
  unfold calculate_unity
  rw [if_neg hq, if_neg hs, heq, jensenshannon_self]
  norm_num

/-- Witness for C4 at identical constant ideal and actual vectors. -/
theorem unity_one_on_match_witness :
    calculate_unity (fun _ => (1 : ℝ)) (fun _ => 1) = 1 :=
  unity_one_on_match _ _
    (by norm_num [Finset.sum_const, Finset.card_univ])
    (by norm_num [Finset.sum_const, Finset.card_univ])
    rfl

/-! ### Weight Solver — `calculate_ahp_weights` (src/app.py lines 215-242) -/

/-- Sequential numpy assignment `M[a, b] = x` on the 7×7 comparison matrix. -/
def matrix_set (M : Fin 7 → Fin 7 → ℚ) (a b : Fin 7) (x : ℚ) : Fin 7 → Fin 7 → ℚ :=
  fun a' b' => if a' = a ∧ b' = b then x else M a' b'

/-- One iteration of the comparison loop (app.py lines 220-227): a judgment
`e = ((item1, item2), winner)`; if the winner is `item1` then
`M[i,j] = 3; M[j,i] = 1/3`, if it is `item2` the reciprocal, else no change. -/
def ahp_step (M : Fin 7 → Fin 7 → ℚ) (e : (Fin 7 × Fin 7) × Fin 7) :
    Fin 7 → Fin 7 → ℚ :=
  if e.2 = e.1.1 then matrix_set (matrix_set M e.1.1 e.1.2 3) e.1.2 e.1.1 (1/3)
  else if e.2 = e.1.2 then matrix_set (matrix_set M e.1.1 e.1.2 (1/3)) e.1.2 e.1.1 3
  else M

/-- `matrix = np.ones((n, n))` followed by the comparison loop
(app.py lines 217-227); a judgment set is a list of (pair, winner) entries. -/
def ahp_matrix (comparisons : List ((Fin 7 × Fin 7) × Fin 7)) : Fin 7 → Fin 7 → ℚ :=
  comparisons.foldl ahp_step (fun _ _ => 1)

/-- `np.round`: round half to even (banker's rounding). -/
def np_round (x : ℚ) : ℤ :=
  if x - (⌊x⌋ : ℚ) < 1/2 then ⌊x⌋
  else if (1 : ℚ)/2 < x - (⌊x⌋ : ℚ) then ⌊x⌋ + 1
  else if Even ⌊x⌋ then ⌊x⌋ else ⌊x⌋ + 1

/-- `np.argmax`: index of the first occurrence of the maximum value. -/
def argmax7 (v : Fin 7 → ℤ) : Fin 7 :=
  (List.finRange 7).foldl (fun best i => if v best < v i then i else best) 0

/-- `weights = pev / pev.sum(); weights = np.clip(weights, 0, None);
if weights.sum() == 0: weights = np.ones_like(weights) / len(weights)`
(app.py lines 232-235), applied to the principal eigenvector `pev` returned
by the external `np.linalg.eig` call. -/
def ahp_normalize (pev : Fin 7 → ℚ) : Fin 7 → ℚ :=
  if (∑ i, max (pev i / ∑ j, pev j) 0) = 0 then fun _ => 1/7
  else fun i => max (pev i / ∑ j, pev j) 0

/-- `int_weights = (weights * 100).round().astype(int)` (app.py line 237). -/
def int_weights (pev : Fin 7 → ℚ) : Fin 7 → ℤ :=
  fun i => np_round (ahp_normalize pev i * 100)

/-- `diff = 100 - np.sum(int_weights); if diff != 0:
int_weights[np.argmax(int_weights)] += diff` (app.py lines 238-242).
The eigendecomposition itself is the external `np.linalg.eig` call, so the
solver is embedded as a function of the principal eigenvector it returns;
every float vector numpy can produce is a rational vector, so quantifying
over `pev : Fin 7 → ℚ` covers every actual run. -/
def calculate_ahp_weights (pev : Fin 7 → ℚ) : Fin 7 → ℤ :=
  if (100 - ∑ i, int_weights pev i) = 0 then int_weights pev
  else Function.update (int_weights pev) (argmax7 (int_weights pev))
    (int_weights pev (argmax7 (int_weights pev)) + (100 - ∑ i, int_weights pev i))

/-- Patching one component by `d` changes the total by `d`. -/
theorem sum_update_add (v : Fin 7 → ℤ) (k : Fin 7) (d : ℤ) :
    (∑ i, Function.update v k (v k + d) i) = (∑ i, v i) + d := by
  have h : ∀ i : Fin 7, Function.update v k (v k + d) i = v i + (if i = k then d else 0) := by
    intro i
    rcases eq_or_ne i k with rfl | hik
    · simp
    · simp [Function.update_noteq hik, hik]
  rw [Finset.sum_congr rfl fun i _ => h i, Finset.sum_add_distrib]
  simp

/-- An entry of the comparison matrix not named by a judgment is untouched. -/
theorem matrix_set_noteq (M : Fin 7 → Fin 7 → ℚ) (a b i j : Fin 7) (x : ℚ)
    (h : ¬(i = a ∧ j = b)) : matrix_set M a b x i j = M i j := by
  unfold matrix_set
  rw [if_neg h]

/-- A judgment on a different pair leaves the entry `(i, j)` unchanged. -/
theorem ahp_step_preserve (M : Fin 7 → Fin 7 → ℚ) (e : (Fin 7 × Fin 7) × Fin 7)
    (i j : Fin 7) (h1 : e.1 ≠ (i, j)) (h2 : e.1 ≠ (j, i)) :
    ahp_step M e i j = M i j := by
  have hij : ¬(i = e.1.1 ∧ j = e.1.2) := by
    rintro ⟨hi, hj⟩
    exact h1 (by rw [hi, hj])
  have hji : ¬(i = e.1.2 ∧ j = e.1.1) := by
    rintro ⟨hi, hj⟩
    exact h2 (by rw [hi, hj])
  unfold ahp_step
  split
  · rw [matrix_set_noteq _ _ _ _ _ _ hji, matrix_set_noteq _ _ _ _ _ _ hij]
  split
  · rw [matrix_set_noteq _ _ _ _ _ _ hji, matrix_set_noteq _ _ _ _ _ _ hij]
  · rfl

/-- The comparison loop never touches a pair absent from the judgment set. -/
theorem ahp_foldl_preserve (i j : Fin 7) :
    ∀ (L : List ((Fin 7 × Fin 7) × Fin 7)) (M : Fin 7 → Fin 7 → ℚ),
      (∀ e ∈ L, e.1 ≠ (i, j) ∧ e.1 ≠ (j, i)) → L.foldl ahp_step M i j = M i j := by
  intro L
  induction L with
  | nil => intro M _; rfl
  | cons e L ih =>
    intro M h
    rw [List.foldl_cons, ih (ahp_step M e) (fun e' he' => h e' (List.mem_cons_of_mem _ he'))]
    exact ahp_step_preserve M e i j (h e (List.mem_cons_self _ _)).1
      (h e (List.mem_cons_self _ _)).2

/-- C5: for every judgment set over the 7 domains (unjudged pairs keep the
"no preference" matrix entry `1`) and every principal eigenvector the external
eigendecomposition can return, `calculate_ahp_weights` yields an integer
weight vector summing to exactly `100`. -/
theorem ahp_weights_sum_100 (comparisons : List ((Fin 7 × Fin 7) × Fin 7))
    (pev : Fin 7 → ℚ) :
    (∑ i, calculate_ahp_weights pev i) = 100 ∧
    (∀ i j : Fin 7, (∀ e ∈ comparisons, e.1 ≠ (i, j) ∧ e.1 ≠ (j, i)) →
      ahp_matrix comparisons i j = 1) := by
  constructor
  · unfold calculate_ahp_weights
    by_cases h : (100 - ∑ i, int_weights pev i) = 0
    · rw [if_pos h]
      omega
    · rw [if_neg h, sum_update_add]
      omega
  · intro i j h
    unfold ahp_matrix
    exact ahp_foldl_preserve i j comparisons _ h

/-- Witness for C5 at the empty judgment set and the constant eigenvector. -/
theorem ahp_weights_sum_100_witness :
    (∑ i, calculate_ahp_weights (fun _ => (1 : ℚ)) i) = 100 ∧
    ahp_matrix [] 0 1 = 1 :=
  ⟨(ahp_weights_sum_100 [] (fun _ => 1)).1,
   (ahp_weights_sum_100 [] (fun _ => 1)).2 0 1 (by simp)⟩

/-- The empty judgment set produces the all-ones matrix, whose Perron
eigenvector is the constant vector: `(ahp_matrix []) · 1 = 7 · 1` row-wise.
This justifies feeding the constant vector to `calculate_ahp_weights` as the
principal eigenvector for the empty judgment set. -/
theorem ones_matrix_constant_eigenvector :
    ∀ i : Fin 7, (∑ j, ahp_matrix [] i j * 1) = 7 * 1 := by
  intro i
  show (∑ _j : Fin 7, (1 : ℚ) * 1) = 7 * 1
  simp

/-- On the constant eigenvector the normalize/clip/fallback step yields the
uniform distribution. -/
theorem ahp_normalize_ones : ahp_normalize (fun _ => (1 : ℚ)) = fun _ => 1/7 := by
  unfold ahp_normalize
  have hsum : (∑ _j : Fin 7, (1 : ℚ)) = 7 := by simp
  have hmax : (fun i : Fin 7 => max ((fun _ : Fin 7 => (1 : ℚ)) i / ∑ j, (fun _ : Fin 7 => (1 : ℚ)) j) 0) =
      fun _ => 1/7 := by
    funext i
    simp only [hsum]
    exact max_eq_left (by norm_num)
  rw [show (∑ i, max ((fun _ : Fin 7 => (1 : ℚ)) i / ∑ j, (fun _ : Fin 7 => (1 : ℚ)) j) 0) =
      ∑ i : Fin 7, (1 : ℚ)/7 from Finset.sum_congr rfl fun i _ => congrFun hmax i]
  rw [if_neg (by simp [Finset.sum_const])]
  exact hmax

/-- On the constant eigenvector every integer weight rounds to `14`. -/
theorem int_weights_ones : int_weights (fun _ => (1 : ℚ)) = fun _ => 14 := by
  funext i
  unfold int_weights
  rw [ahp_normalize_ones]
  show np_round ((1 : ℚ)/7 * 100) = 14
  unfold np_round
  have hfl : (⌊(1/7 * 100 : ℚ)⌋ : ℤ) = 14 := by norm_num
  rw [hfl, if_pos (by norm_num)]

/-- The fully evaluated solver output for the empty judgment set. -/
theorem calculate_ahp_weights_ones :
    calculate_ahp_weights (fun _ => (1 : ℚ)) = Function.update (fun _ => (14 : ℤ)) 0 16 := by
  unfold calculate_ahp_weights
  rw [int_weights_ones]
  have hsum : (∑ _i : Fin 7, (14 : ℤ)) = 98 := by decide
  rw [hsum, if_neg (by norm_num), show argmax7 (fun _ => (14 : ℤ)) = 0 from by decide]
  norm_num

/-- C6 counterexample: on the empty judgment set (uniform eigenvector) the
solver returns no component equal to `15`; the first domain absorbs the whole
residual `2` and receives `16`, not `15`. -/
theorem ahp_empty_no_fifteen :
    (∀ i : Fin 7, calculate_ahp_weights (fun _ => (1 : ℚ)) i ≠ 15) ∧
    calculate_ahp_weights (fun _ => (1 : ℚ)) 0 = 16 := by
  rw [calculate_ahp_weights_ones]
  decide

/-- C6 (amended): for the empty judgment set each of the seven uniform weights
`100/7` rounds to `14` (total `98`), and the single residual `2` is absorbed by
the first domain in enumeration order (the argmax tie-break), which therefore
receives `16`; the vector sums to exactly `100`. -/
theorem ahp_empty_uniform_split :
    (∀ i : Fin 7, calculate_ahp_weights (fun _ => (1 : ℚ)) i =
      if i = 0 then 16 else 14) ∧
    (∑ i, calculate_ahp_weights (fun _ => (1 : ℚ)) i) = 100 := by
  rw [calculate_ahp_weights_ones]
  constructor
  · decide
  · decide

/-! ### Risk Aggregator — `calculate_rhi_metrics` (src/app.py lines 389-396) -/

/-- The four outputs of `calculate_rhi_metrics`. -/
structure RhiResult where
  mean_H : ℝ
  std_H : ℝ
  frac_below : ℝ
  RHI : ℝ

/-- `df_period['H'].mean()`: arithmetic mean of the window. -/
noncomputable def list_mean (hs : List ℝ) : ℝ := hs.sum / hs.length

/-- `df_period['H'].std(ddof=0)`: population standard deviation (divisor `n`). -/
noncomputable def list_std_pop (hs : List ℝ) : ℝ :=
  Real.sqrt ((hs.map fun x => (x - list_mean hs) ^ 2).sum / hs.length)

/-- `(df_period['H'] < tau_rhi).mean()`: fraction of records strictly below
the threshold. -/
noncomputable def list_frac_below (hs : List ℝ) (tau : ℝ) : ℝ :=
  ((hs.filter fun x => decide (x < tau)).length : ℝ) / hs.length

/-- `calculate_rhi_metrics(df_period, lambda, gamma, tau)`
(app.py lines 389-396): empty window gives the zeroed result, otherwise
`RHI = mean_H - lambda*std_H - gamma*frac_below`. -/
noncomputable def calculate_rhi_metrics (hs : List ℝ)
    (lambda_rhi gamma_rhi tau_rhi : ℝ) : RhiResult :=
  if hs = [] then ⟨0, 0, 0, 0⟩
  else
    ⟨list_mean hs, list_std_pop hs, list_frac_below hs tau_rhi,
     list_mean hs - lambda_rhi * list_std_pop hs - gamma_rhi * list_frac_below hs tau_rhi⟩

/-- C7: for every non-empty window, `RHI = mean_H − λ·std_H − γ·frac_below`,
where `std_H` is the population standard deviation (divisor `n`, not `n−1`)
and `frac_below` the fraction of records strictly below `τ`; with
`λ = γ = 0`, `RHI` equals `mean_H` exactly. -/
theorem rhi_formula (hs : List ℝ) (lam gam tau : ℝ) (h : hs ≠ []) :
    (calculate_rhi_metrics hs lam gam tau).RHI =
      (calculate_rhi_metrics hs lam gam tau).mean_H
        - lam * (calculate_rhi_metrics hs lam gam tau).std_H
        - gam * (calculate_rhi_metrics hs lam gam tau).frac_below ∧
    (calculate_rhi_metrics hs lam gam tau).mean_H = hs.sum / hs.length ∧
    (calculate_rhi_metrics hs lam gam tau).std_H =
      Real.sqrt ((hs.map fun x => (x - hs.sum / hs.length) ^ 2).sum / hs.length) ∧
    (calculate_rhi_metrics hs lam gam tau).frac_below =
      ((hs.filter fun x => decide (x < tau)).length : ℝ) / hs.length ∧
    (calculate_rhi_metrics hs 0 0 tau).RHI = hs.sum / hs.length := by
  unfold calculate_rhi_metrics list_mean list_std_pop list_frac_below
  rw [if_neg h]
  refine ⟨rfl, rfl, rfl, rfl, ?_⟩
  rw [if_neg h]
  ring

/-- Witness for C7 at the singleton window `[1]`. -/
theorem rhi_formula_witness :
    ((1 : ℝ) :: []) ≠ [] ∧
    (calculate_rhi_metrics [(1 : ℝ)] 0 0 (1/2)).RHI = [(1 : ℝ)].sum / [(1 : ℝ)].length :=
  ⟨by simp, (rhi_formula [(1 : ℝ)] 0 0 (1/2) (by simp)).2.2.2.2⟩

/-- C8: the empty window yields the all-zero result rather than failing, and a
single-record window has `std_H = 0`, so `RHI = mean_H − γ·frac_below`. -/
theorem rhi_edge_cases :
    (∀ lam gam tau : ℝ, calculate_rhi_metrics [] lam gam tau = ⟨0, 0, 0, 0⟩) ∧
    (∀ h lam gam tau : ℝ,
      (calculate_rhi_metrics [h] lam gam tau).std_H = 0 ∧
      (calculate_rhi_metrics [h] lam gam tau).RHI =
        (calculate_rhi_metrics [h] lam gam tau).mean_H
          - gam * (calculate_rhi_metrics [h] lam gam tau).frac_below) := by
  constructor
  · intro lam gam tau
    unfold calculate_rhi_metrics
    rw [if_pos rfl]
  · intro h lam gam tau
    have hstd : list_std_pop [h] = 0 := by
      unfold list_std_pop list_mean
      simp
    constructor
    · unfold calculate_rhi_metrics
      rw [if_neg (by simp)]
      exact hstd
    · unfold calculate_rhi_metrics
      rw [if_neg (by simp)]
      simp only [hstd]
      ring

/-! ### Discrepancy Analyzer — `analyze_discrepancy` (src/app.py lines 350-387) -/

/-- The three insight branches of `analyze_discrepancy`. -/
inductive Classification where
  | positiveSurprise
  | hiddenDissatisfaction
  | aligned

/-- `analyze_discrepancy` classification for the latest record:
`latest_h = H * 100`, `gap = G - latest_h`, then `gap > threshold` /
`gap < -threshold` / otherwise (app.py lines 354-387, default threshold 20). -/
noncomputable def analyze_discrepancy (g h threshold : ℝ) : Classification :=
  if g - h * 100 > threshold then Classification.positiveSurprise
  else if g - h * 100 < -threshold then Classification.hiddenDissatisfaction
  else Classification.aligned

/-- C9: with `gap = G − 100·H` and threshold 20, the classification is a
strict partition: `gap > 20` gives positive surprise, `gap < −20` gives hidden
dissatisfaction, and everything else — including both boundary values
`gap = ±20` — is aligned. -/
theorem discrepancy_partition (g h : ℝ) :
    (g - h * 100 > 20 → analyze_discrepancy g h 20 = Classification.positiveSurprise) ∧
    (g - h * 100 < -20 → analyze_discrepancy g h 20 = Classification.hiddenDissatisfaction) ∧
    (-20 ≤ g - h * 100 → g - h * 100 ≤ 20 → analyze_discrepancy g h 20 = Classification.aligned) := by
  refine ⟨?_, ?_, ?_⟩
  · intro hgt
    unfold analyze_discrepancy
    rw [if_pos hgt]
  · intro hlt
    unfold analyze_discrepancy
    rw [if_neg (by linarith), if_pos hlt]
  · intro hge hle
    unfold analyze_discrepancy
    rw [if_neg (by linarith), if_neg (by linarith)]

/-- Witness for C9 at the boundary `gap = 20` (G = 20, H = 0), classified
aligned. -/
theorem discrepancy_partition_witness :
    analyze_discrepancy 20 0 20 = Classification.aligned :=
  (discrepancy_partition 20 0).2.2 (by norm_num) (by norm_num)

/-! ### EncryptionManager — `encrypt_log` / `decrypt_log`
(src/app.py lines 132-167)

Text is represented by its UTF-8 byte sequence (`log_text.encode('utf-8')`,
a list of naturals `< 256`); the base64 output is represented by its list of
6-bit symbol values (the trailing `=` padding of the ASCII form is implicit in
the output length, and the alphabet map from 6-bit values to ASCII characters
is a bijection external to the logic). The key is the SHA-256 digest of the
password: an opaque, non-empty list of bytes `< 256` produced by the external
`hashlib.sha256(...).digest()` call. -/

/-- `bytes([b ^ self.key[i % len(self.key)] for i, b in enumerate(data)])`
(app.py lines 156 and 164), starting at stream offset `i`. -/
def xor_cycle (key : List ℕ) : ℕ → List ℕ → List ℕ
  | _, [] => []
  | i, b :: rest => (b ^^^ key.getD (i % key.length) 0) :: xor_cycle key (i + 1) rest

/-- `base64.b64encode`: 3 bytes become 4 six-bit symbols; a final chunk of 1
or 2 bytes becomes 2 or 3 symbols (plus implicit `=` padding). -/
def b64encode : List ℕ → List ℕ
  | [] => []
  | [a] => [a / 4, a % 4 * 16]
  | [a, b] => [a / 4, a % 4 * 16 + b / 16, b % 16 * 4]
  | a :: b :: c :: rest =>
      a / 4 :: (a % 4 * 16 + b / 16) :: (b % 16 * 4 + c / 64) :: c % 64 :: b64encode rest

/-- `base64.b64decode`: reassemble 8-bit bytes from the 6-bit symbols. -/
def b64decode : List ℕ → List ℕ
  | s1 :: s2 :: s3 :: s4 :: rest =>
      (s1 * 4 + s2 / 16) :: (s2 % 16 * 16 + s3 / 4) :: (s3 % 4 * 64 + s4) :: b64decode rest
  | [s1, s2] => [s1 * 4 + s2 / 16]
  | [s1, s2, s3] => [s1 * 4 + s2 / 16, s2 % 16 * 16 + s3 / 4]
  | _ => []

/-- `EncryptionManager` (app.py lines 132-135): holds
`self.key = hashlib.sha256(password).digest()`. -/
structure EncryptionManager where
  key : List ℕ

/-- `encrypt_log` (app.py lines 153-157): empty text encrypts to the empty
string, otherwise XOR with the cyclic key then base64-encode. -/
def encrypt_log (em : EncryptionManager) (log_text : List ℕ) : List ℕ :=
  if log_text = [] then [] else b64encode (xor_cycle em.key 0 log_text)

/-- `decrypt_log` (app.py lines 159-167), happy path: empty input decrypts to
the empty string, otherwise base64-decode then XOR with the cyclic key. -/
def decrypt_log (em : EncryptionManager) (encrypted_log : List ℕ) : List ℕ :=
  if encrypted_log = [] then [] else xor_cycle em.key 0 (b64decode encrypted_log)

/-- Any cyclic-key lookup is a byte when the key consists of bytes. -/
theorem getD_lt_256 (key : List ℕ) (hk : ∀ b ∈ key, b < 256) (n : ℕ) :
    key.getD n 0 < 256 := by
  induction key generalizing n with
  | nil => simp [List.getD]
  | cons a t ih =>
    cases n with
    | zero => simpa using hk a (List.mem_cons_self a t)
    | succ m =>
      simp only [List.getD]
      exact ih (fun b hb => hk b (List.mem_cons_of_mem a hb)) m

/-- The XOR stream maps bytes to bytes. -/
theorem xor_cycle_lt_256 (key : List ℕ) (hk : ∀ b ∈ key, b < 256) :
    ∀ (i : ℕ) (l : List ℕ), (∀ b ∈ l, b < 256) →
      ∀ b ∈ xor_cycle key i l, b < 256 := by
  intro i l
  induction l generalizing i with
  | nil =>
    intro _ b hb
    simp [xor_cycle] at hb
  | cons a t ih =>
    intro hl b hb
    simp only [xor_cycle, List.mem_cons] at hb
    rcases hb with rfl | hb
    · have ha : a < 256 := hl a (List.mem_cons_self a t)
      have hkey : key.getD (i % key.length) 0 < 256 := getD_lt_256 key hk _
      simpa using Nat.xor_lt_two_pow (n := 8) ha hkey
    · exact ih (i + 1) (fun x hx => hl x (List.mem_cons_of_mem a hx)) b hb

/-- XOR with the cyclic key is an involution at every stream offset. -/
theorem xor_cycle_involution (key : List ℕ) :
    ∀ (i : ℕ) (l : List ℕ), xor_cycle key i (xor_cycle key i l) = l := by
  intro i l
  induction l generalizing i with
  | nil => rfl
  | cons a t ih =>
    simp only [xor_cycle, Nat.xor_cancel_right, List.cons.injEq, true_and]
    exact ih (i + 1)

/-- base64 decoding inverts base64 encoding on byte sequences. -/
theorem b64decode_b64encode : ∀ (l : List ℕ), (∀ b ∈ l, b < 256) →
    b64decode (b64encode l) = l
  | [] => fun _ => rfl
  | [a] => fun _ => by
      simp only [b64encode, b64decode, List.cons.injEq, and_true]
      omega
  | [a, b] => fun h => by
      have hb : b < 256 := h b (by simp)
      simp only [b64encode, b64decode, List.cons.injEq, and_true]
      omega
  | a :: b :: c :: rest => fun h => by
      have hb : b < 256 := h b (by simp)
      have hc : c < 256 := h c (by simp)
      have hrest : b64decode (b64encode rest) = rest :=
        b64decode_b64encode rest fun x hx => h x (by simp [hx])
      simp only [b64encode, b64decode, List.cons.injEq]
      refine ⟨by omega, by omega, by omega, hrest⟩

/-- Encoding a non-empty byte sequence yields a non-empty symbol sequence. -/
theorem b64encode_ne_nil : ∀ (l : List ℕ), l ≠ [] → b64encode l ≠ []
  | [], h => absurd rfl h
  | [_], _ => by simp [b64encode]
  | [_, _], _ => by simp [b64encode]
  | _ :: _ :: _ :: _, _ => by simp [b64encode]

/-- The XOR stream of a non-empty byte sequence is non-empty. -/
theorem xor_cycle_ne_nil (key : List ℕ) (i : ℕ) (a : ℕ) (t : List ℕ) :
    xor_cycle key i (a :: t) ≠ [] := by
  simp [xor_cycle]

/-- C10: for every `EncryptionManager` key (the SHA-256 digest is a non-empty
list of bytes) and every text (as UTF-8 bytes),
`decrypt_log (encrypt_log t) = t`: the cyclic XOR stream is an involution and
base64 round-trips; moreover the empty string encrypts to the empty string and
decrypts to the empty string. -/
theorem encrypt_decrypt_roundtrip (em : EncryptionManager) (t : List ℕ)
    (_hkey : em.key ≠ []) (hk : ∀ b ∈ em.key, b < 256) (ht : ∀ b ∈ t, b < 256) :
    decrypt_log em (encrypt_log em t) = t ∧
    encrypt_log em [] = [] ∧ decrypt_log em [] = [] := by
  refine ⟨?_, rfl, rfl⟩
  rcases t with _ | ⟨a, t'⟩
  · rfl
  · unfold encrypt_log decrypt_log
    rw [if_neg (show (a :: t' : List ℕ) ≠ [] from by simp)]
    rw [if_neg (b64encode_ne_nil _ (xor_cycle_ne_nil em.key 0 a t'))]
    rw [b64decode_b64encode _ (xor_cycle_lt_256 em.key hk 0 _ ht)]
    exact xor_cycle_involution em.key 0 _

/-- Witness for C10 with the one-byte key `[7]` and the text `[65]`. -/
theorem encrypt_decrypt_roundtrip_witness :
    decrypt_log ⟨[7]⟩ (encrypt_log ⟨[7]⟩ [65]) = [65] :=
  (encrypt_decrypt_roundtrip ⟨[7]⟩ [65] (by simp) (by simp) (by simp)).1

end HarmonyNavigator
